import Mathlib

/-!
# install-peerdeps: a shallow embedding of `installPeerDeps.js` and `helpers.js`

JavaScript strings are modelled by `String` (well-formed text, no lone surrogates),
JavaScript objects obtained from JSON by ordered association lists with unique keys,
and the asynchronous collaborators (`npm.load`, `registry.get`, `hasYarn`,
`process.platform`, the spawned child process) by an explicit environment record.
`installPeerDeps` returns the ordered list of observable effects of one invocation.
The pattern of `parsePackageString` is run by a small backtracking matcher.
-/

namespace InstallPeerDeps

/-! ## JavaScript values -/

/-- A plain JavaScript object as produced by `JSON.parse`: its own enumerable
properties in `Object.keys` order; property names are unique. -/
structure JsObject (α : Type) where
  entries : List (String × α)
  nodup : (entries.map Prod.fst).Nodup

/-- The keys of an object, as `Object.keys(o)` lists them. -/
def JsObject.keys {α : Type} (o : JsObject α) : List String :=
  o.entries.map Prod.fst

/-- Own-property read `o[k]`; `none` stands for "no own property `k`". -/
def JsObject.get {α : Type} (o : JsObject α) (k : String) : Option α :=
  o.entries.lookup k

/-- Property names every plain object inherits from `Object.prototype` in Node. -/
def objectPrototypeKeys : List String :=
  ["constructor", "__defineGetter__", "__defineSetter__", "hasOwnProperty",
   "__lookupGetter__", "__lookupSetter__", "isPrototypeOf", "propertyIsEnumerable",
   "toString", "valueOf", "__proto__", "toLocaleString"]

/-- Values passed to the completion callback as its error argument. -/
inductive Err where
  /-- an error object handed over by a collaborator (`npm.load`, `registry.get`,
  the child process), identified by a label -/
  | external (label : String)
  /-- the value of `new Error(message)` -/
  | error (message : String)
  deriving DecidableEq, Repr

/-- The metadata of one published version: `peerDependencies` may be missing. -/
structure VersionMeta where
  peerDependencies : Option (JsObject String)

/-- The registry document: `data.versions` and `data['dist-tags']`. -/
structure RegistryData where
  versions : JsObject VersionMeta
  distTags : JsObject String

/-- A signal of the spawned child process. The exit code of `'close'` is a
number, or `null` (here `none`) when the process was killed by a signal. -/
inductive ProcSignal where
  | error (err : Err)
  | close (code : Option Int)
  deriving DecidableEq, Repr

/-- What the collaborators answer during one invocation. -/
structure Env where
  /-- the `err` argument `npm.load` passes to its callback (`none` for `null`) -/
  load : Option Err
  /-- what `registry.get` passes to its callback -/
  registry : Except Err RegistryData
  /-- the result of `hasYarn()` -/
  hasYarn : Bool
  /-- the value of `process.platform` -/
  platform : String
  /-- the signals the spawned process emits, in order -/
  signals : List ProcSignal

/-- Observable effects of an invocation, in the order they happen. -/
inductive Effect where
  /-- `registry.get(uri, ...)` -/
  | registryGet (uri : String)
  /-- `cb(err)`; `none` is `cb(null)` -/
  | cb (err : Option Err)
  /-- `console.log(line)` -/
  | log (line : String)
  /-- `spawn(command, args, ...)` -/
  | spawn (command : String) (args : List String)
  /-- an uncaught `TypeError` leaves the registry callback -/
  | throwTypeError
  deriving DecidableEq, Repr

/-! ## String primitives -/

/-- The pieces of a character list between occurrences of `sep`. -/
def splitChars (sep : Char) : List Char → List (List Char)
  | [] => [[]]
  | c :: cs =>
    if c = sep then [] :: splitChars sep cs
    else
      match splitChars sep cs with
      | [] => [[c]]
      | w :: ws => (c :: w) :: ws

/-- JavaScript `s.split(sep)` for a one-character separator. -/
def split (s : String) (sep : Char) : List String :=
  (splitChars sep s.data).map String.mk

/-- UTF-8 bytes of a character. -/
def utf8Bytes (c : Char) : List Nat :=
  let n := c.toNat
  if n < 0x80 then [n]
  else if n < 0x800 then [0xC0 + n / 64, 0x80 + n % 64]
  else if n < 0x10000 then [0xE0 + n / 4096, 0x80 + n / 64 % 64, 0x80 + n % 64]
  else [0xF0 + n / 262144, 0x80 + n / 4096 % 64, 0x80 + n / 64 % 64, 0x80 + n % 64]

/-- Upper-case hexadecimal digit of a number below 16. -/
def hexDigit (n : Nat) : Char :=
  "0123456789ABCDEF".data.getD n '0'

/-- The escape `%XY` of one byte. -/
def percentByte (b : Nat) : List Char :=
  ['%', hexDigit (b / 16), hexDigit (b % 16)]

/-- Characters `encodeURIComponent` leaves as they are: `A-Z a-z 0-9 - _ . ! ~ * ' ( )`. -/
def isUriUnreserved (c : Char) : Bool :=
  c.isAlphanum || c ∈ ['-', '_', '.', '!', '~', '*', Char.ofNat 39, '(', ')']

/-- JavaScript `encodeURIComponent` on well-formed text. -/
def encodeURIComponent (s : String) : String :=
  String.mk (s.data.flatMap fun c =>
    if isUriUnreserved c then [c] else (utf8Bytes c).flatMap percentByte)

/-- Template-literal rendering of an exit code (`null` when there is none). -/
def codeToString : Option Int → String
  | none => "null"
  | some n => toString n

/-! ## `installPeerDeps` -/

/-- The constant `C.npm` of the source. -/
def C.npm : String := "npm"

/-- The constant `C.yarn` of the source. -/
def C.yarn : String := "yarn"

/-- Lines 27-32: the package name as it appears in the registry path. -/
def encodedPackageName (packageName : String) : String :=
  if packageName.data.head? = some '@' then
    "@" ++ encodeURIComponent (String.mk (packageName.data.drop 1))
  else
    encodeURIComponent packageName

/-- Line 33. -/
def packageUri (packageName : String) : String :=
  "https://registry.npmjs.com/" ++ encodedPackageName packageName

/-- The error of line 45. -/
def unknownVersionError : Err :=
  .error "That version or tag does not exist."

/-- The error of line 55. -/
def noPeerDepsError : Err :=
  .error "The package you are trying to install has no peer dependencies. Use yarn or npm to install it manually."

/-- Lines 39-49: the value of `version` after resolution, or the error passed
to `cb` at line 45. A property read that finds nothing yields `undefined`,
which every later use (property key, template literal) renders as `"undefined"`. -/
def resolveVersion (data : RegistryData) (version : String) : Except Err String :=
  let versions := data.versions.keys
  if version ∉ versions then
    let tags := data.distTags.keys
    if version ∉ tags then
      .error unknownVersionError
    else
      .ok ((data.distTags.get version).getD "undefined")
  else
    .ok version

/-- Line 52, `data.versions[version].peerDependencies`: `none` when the read
throws a `TypeError` (`data.versions[version]` is `undefined`), `some none` when
it evaluates to `undefined`, `some (some m)` when it evaluates to the mapping `m`.
An inherited property of `data.versions` is a function or `Object.prototype`
itself and has no `peerDependencies`. -/
def peerDepsVersionMap (data : RegistryData) (version : String) :
    Option (Option (JsObject String)) :=
  match data.versions.get version with
  | some m => some m.peerDependencies
  | none => if version ∈ objectPrototypeKeys then some none else none

/-- Lines 59-62: the package name followed by ` depName@range` for every key. -/
def packagesString (packageName : String) (peerDeps : JsObject String) : String :=
  peerDeps.keys.foldl
    (fun acc depName => acc ++ " " ++ depName ++ "@" ++ (peerDeps.get depName).getD "undefined")
    packageName

/-- Line 64. -/
def packageManager (hasYarn : Bool) : String :=
  if hasYarn then C.yarn else C.npm

/-- Line 65. -/
def subcommand (pm : String) : String :=
  if pm = C.yarn then "add" else "install"

/-- Lines 66-69. -/
def devFlag (pm : String) (dev : Bool) : String :=
  let devFlag := if pm = C.yarn then "--dev" else "--save-dev"
  if !dev then "" else devFlag

/-- Lines 70-76. -/
def extra (platform : String) : String :=
  if platform = "win32" then ".cmd" else ""

/-- Lines 78-95: the argument list handed to `spawn`. -/
def args (pm : String) (pkgs : String) (flag : String) : List String :=
  let args : List String := []
  let args := args ++ [subcommand pm]
  let args := args ++ split pkgs ' '
  let args := if flag ≠ "" then args ++ [flag] else args
  let args := if flag = "" ∧ pm = C.npm then args ++ ["--save"] else args
  args

/-- Lines 107-113: the handlers attached to the install process. -/
def onSignal : ProcSignal → Effect
  | .error err => .cb (some err)
  | .close code =>
    if code ≠ some 0 then
      .cb (some (.error ("The install process exited with error code " ++ codeToString code ++ ".")))
    else
      .cb none

/-- Lines 58-113: everything after the peer-dependency mapping is known. -/
def install (env : Env) (packageName version : String) (dev : Bool)
    (peerDeps : JsObject String) : List Effect :=
  let pkgs := packagesString packageName peerDeps
  let pm := packageManager env.hasYarn
  let flag := devFlag pm dev
  [ .log ("Installing peerdeps for " ++ packageName ++ "@" ++ version ++ "."),
    .log (pm ++ " " ++ subcommand pm ++ " " ++ pkgs ++ " " ++ flag ++ "\n"),
    .spawn (pm ++ extra env.platform) (args pm pkgs flag) ]
  ++ env.signals.map onSignal

/-- Lines 36-113: the callback given to `registry.get`, on a response without error. -/
def onRegistryData (env : Env) (packageName version : String) (dev : Bool)
    (data : RegistryData) : List Effect :=
  match resolveVersion data version with
  | .error e => [.cb (some e)]
  | .ok version =>
    match peerDepsVersionMap data version with
    | none => [.throwTypeError]
    | some none =>
      -- line 55 calls `cb` and goes on; `Object.keys(undefined)` at line 60 throws
      [.cb (some noPeerDepsError), .throwTypeError]
    | some (some peerDeps) => install env packageName version dev peerDeps

/-- The function `installPeerDeps(packageName, version, dev, cb)`. -/
def installPeerDeps (env : Env) (packageName version : String) (dev : Bool) : List Effect :=
  match env.load with
  | some err => [.cb (some err)]
  | none =>
    .registryGet (packageUri packageName) ::
      match env.registry with
      | .error err => [.cb (some err)]
      | .ok data => onRegistryData env packageName version dev data

/-! ## Observations on a trace -/

/-- The argument lists of the `spawn` calls of a trace. -/
def spawnedArgs : List Effect → List (List String)
  | [] => []
  | .spawn _ a :: rest => a :: spawnedArgs rest
  | _ :: rest => spawnedArgs rest

/-- The values the completion callback received, in order. -/
def cbCalls : List Effect → List (Option Err)
  | [] => []
  | .cb e :: rest => e :: cbCalls rest
  | _ :: rest => cbCalls rest

/-- The executables of the `spawn` calls of a trace. -/
def spawnedCommands : List Effect → List String
  | [] => []
  | .spawn c _ :: rest => c :: spawnedCommands rest
  | _ :: rest => spawnedCommands rest

/-- The lines written with `console.log`, in order. -/
def loggedLines : List Effect → List String
  | [] => []
  | .log l :: rest => l :: loggedLines rest
  | _ :: rest => loggedLines rest

/-! ## `parsePackageString` (helpers.js) -/

/-- The constructs of the pattern `/^@?([\/\w-]+)(@([\d\w\.-]+))?$/`. -/
inductive Regex where
  /-- `^` without the multiline flag: only at the start of the input -/
  | bos
  /-- `$` without the multiline flag: only at the end of the input -/
  | eos
  /-- a literal character -/
  | char (c : Char)
  /-- `[...]+`: one or more characters of a class, as many as possible first -/
  | plus (cls : Char → Bool)
  /-- `r?`: with `r` first, without it otherwise -/
  | opt (r : Regex)
  /-- `r` followed by `s` -/
  | seq (r s : Regex)
  /-- capturing group number `i` -/
  | group (i : Nat) (r : Regex)

/-- The captures of a match: `parsed[i]` is the first entry with number `i`,
and `undefined` when there is none. -/
abbrev Captures := List (Nat × String)

/-- Backtracking for `[...]+`: take one character of the class, try to take
more, and only when that fails go on with the rest of the pattern. -/
def Regex.runPlus (cls : Char → Bool) (k : List Char → Option Captures) :
    List Char → Option Captures
  | [] => none
  | c :: cs =>
    if cls c then
      match runPlus cls k cs with
      | some r => some r
      | none => k cs
    else none

/-- Backtracking matcher: `r.run input s caps k` matches `r` at the suffix `s` of
`input` with the captures `caps` made so far, and hands the remaining input and
the captures to the continuation `k`, which matches the rest of the pattern. -/
def Regex.run (input : List Char) :
    Regex → List Char → Captures → (List Char → Captures → Option Captures) → Option Captures
  | .bos, s, caps, k => if s.length = input.length then k s caps else none
  | .eos, s, caps, k => if s = [] then k s caps else none
  | .char c, s, caps, k =>
    match s with
    | d :: rest => if d = c then k rest caps else none
    | [] => none
  | .plus cls, s, caps, k => Regex.runPlus cls (fun rest => k rest caps) s
  | .opt r, s, caps, k =>
    match r.run input s caps k with
    | some res => some res
    | none => k s caps
  | .seq r t, s, caps, k => r.run input s caps fun rest caps1 => t.run input rest caps1 k
  | .group i r, s, caps, k =>
    r.run input s caps fun rest caps1 =>
      k rest ((i, String.mk (s.take (s.length - rest.length))) :: caps1)

/-- The attempts of `String.prototype.match` at the start positions of `s` onwards. -/
def Regex.execFrom (re : Regex) (input : List Char) : List Char → Option Captures
  | [] => re.run input [] [] fun _ caps => some caps
  | c :: rest =>
    match re.run input (c :: rest) [] fun _ caps => some caps with
    | some res => some res
    | none => execFrom re input rest

/-- JavaScript `s.match(re)` for a pattern without flags: the captures of the
first start position at which the pattern matches, `none` for `null`. -/
def Regex.exec (re : Regex) (s : String) : Option Captures :=
  re.execFrom s.data s.data

/-- The class `\w`: `[A-Za-z0-9_]`. -/
def isWordChar (c : Char) : Bool :=
  c.isAlphanum || c == '_'

/-- The class `[\/\w-]` of the package name. -/
def isNameChar (c : Char) : Bool :=
  c == '/' || isWordChar c || c == '-'

/-- The class `[\d\w\.-]` of the version. -/
def isVersionChar (c : Char) : Bool :=
  c.isDigit || isWordChar c || c == '.' || c == '-'

/-- The pattern `/^@?([\/\w-]+)(@([\d\w\.-]+))?$/` of line 8. -/
def packageRegex : Regex :=
  .seq .bos
    (.seq (.opt (.char '@'))
      (.seq (.group 1 (.plus isNameChar))
        (.seq (.opt (.group 2 (.seq (.char '@') (.group 3 (.plus isVersionChar)))))
          .eos)))

/-- The object `parsePackageString` returns; a field is `none` when it is `undefined`. -/
structure PackageSpecifier where
  packageName : Option String
  packageVersion : Option String
  deriving DecidableEq, Repr

/-- The function `parsePackageString(packageString)`; `none` when it throws: on a
string the pattern does not match, `parsed` is `null` and reading `parsed[1]`
raises a `TypeError`. -/
def parsePackageString (packageString : String) : Option PackageSpecifier :=
  match packageRegex.exec packageString with
  | none => none
  | some parsed =>
    let packageName :=
      if packageString.data.head? = some '@' then
        some ("@" ++ (parsed.lookup 1).getD "undefined")
      else
        parsed.lookup 1
    let packageVersion := parsed.lookup 3
    some { packageName := packageName, packageVersion := packageVersion }

/-! ## Specification-side notions -/

/-- The token a specifier stands for: the name, followed by `@` and the version
when there is one. -/
def PackageSpecifier.token (p : PackageSpecifier) : String :=
  p.packageName.getD "undefined" ++
    match p.packageVersion with
    | some v => "@" ++ v
    | none => ""

/-- Name characters in the words of the specification: letters, digits,
underscore, hyphen, forward slash. -/
def isGrammarNameChar (c : Char) : Bool :=
  c.isAlpha || c.isDigit || c == '_' || c == '-' || c == '/'

/-- Version characters in the words of the specification: letters, digits, dot,
hyphen. -/
def isGrammarVersionChar (c : Char) : Bool :=
  c.isAlpha || c.isDigit || c == '.' || c == '-'

/-- The name/version grammar in the words of the specification: an optional
leading `@`, one or more name characters, and optionally `@` followed by one or
more version characters. -/
def MatchesGrammar (token : String) : Prop :=
  ∃ (lead name suffix : List Char),
    (lead = [] ∨ lead = ['@'])
    ∧ name ≠ [] ∧ (∀ c ∈ name, isGrammarNameChar c = true)
    ∧ (suffix = [] ∨
        ∃ v, v ≠ [] ∧ (∀ c ∈ v, isGrammarVersionChar c = true) ∧ suffix = '@' :: v)
    ∧ token.data = lead ++ name ++ suffix

/-- The tokens the pattern of line 8 matches, with the character classes of the
pattern itself: `[\/\w-]` for the name and `[\d\w\.-]` for the version. -/
def MatchesPattern (token : String) : Prop :=
  ∃ (lead name suffix : List Char),
    (lead = [] ∨ lead = ['@'])
    ∧ name ≠ [] ∧ (∀ c ∈ name, isNameChar c = true)
    ∧ (suffix = [] ∨ ∃ v, v ≠ [] ∧ (∀ c ∈ v, isVersionChar c = true) ∧ suffix = '@' :: v)
    ∧ token.data = lead ++ name ++ suffix

/-- Reading a name and an optional version from left to right without
backtracking; the matcher is shown to compute the same captures. -/
def scanName (t : List Char) : Option Captures :=
  if t.takeWhile isNameChar = [] then none
  else
    match t.dropWhile isNameChar with
    | [] => some [(1, String.mk (t.takeWhile isNameChar))]
    | c :: v =>
      if c = '@' ∧ v.takeWhile isVersionChar ≠ [] ∧ v.dropWhile isVersionChar = [] then
        some [(2, String.mk (c :: v)), (3, String.mk v),
          (1, String.mk (t.takeWhile isNameChar))]
      else none

/-- Reading a whole token: an optional leading `@`, then `scanName`. -/
def scanPackage (input : List Char) : Option Captures :=
  if input.head? = some '@' then scanName input.tail else scanName input

/-- The number a decimal numeral denotes. -/
def decimalValue (digits : List Char) : Nat :=
  digits.foldl (fun acc c => acc * 10 + (c.toNat - 48)) 0

/-- A command and its arguments written on one line, separated by single spaces. -/
def commandLine (command : String) (args : List String) : String :=
  " ".intercalate (command :: args)

/-! ## Concrete registry documents and environments -/

/-- A registry document with one published version and one dist-tag. -/
def registryOf (version : String) (peerDependencies : Option (JsObject String))
    (tag target : String) : RegistryData :=
  { versions := ⟨[(version, ⟨peerDependencies⟩)], by simp⟩
    distTags := ⟨[(tag, target)], by simp⟩ }

/-- An environment in which loading and the registry succeed, on Linux. -/
def envWith (data : RegistryData) (hasYarn : Bool) (signals : List ProcSignal) : Env :=
  { load := none, registry := .ok data, hasYarn := hasYarn, platform := "linux",
    signals := signals }

/-- The mapping `{"bar": "^1.0.0"}`. -/
def peerDepsBar : JsObject String := ⟨[("bar", "^1.0.0")], by simp⟩

/-- The mapping `{"react": ">=15.0.0 <17.0.0"}`: a range with two comparators. -/
def peerDepsSpacedRange : JsObject String := ⟨[("react", ">=15.0.0 <17.0.0")], by simp⟩

/-- The mapping `{"bar": "^1.0.0 "}`: a range published with a trailing space. -/
def peerDepsTrailingSpace : JsObject String := ⟨[("bar", "^1.0.0 ")], by simp⟩

/-- Version `3.0.0` with peer dependency `left-pad@^1.3.0`, tagged `next`. -/
def dataNext : RegistryData :=
  registryOf "3.0.0" (some ⟨[("left-pad", "^1.3.0")], by simp⟩) "next" "3.0.0"

/-- Version `1.0.0` with peer dependency `bar@^1.0.0`, tagged `latest`. -/
def dataBar : RegistryData := registryOf "1.0.0" (some peerDepsBar) "latest" "1.0.0"

/-- Version `1.0.0` without a `peerDependencies` field, tagged `latest`. -/
def dataNoPeers : RegistryData := registryOf "1.0.0" none "latest" "1.0.0"

/-- Version `1.0.0` only, while the tag `latest` points to `2.0.0`. -/
def dataDangling : RegistryData := registryOf "1.0.0" (some peerDepsBar) "latest" "2.0.0"

/-- Version `1.0.0`, and a tag that is also called `1.0.0` and points to `2.0.0`. -/
def dataBoth : RegistryData := registryOf "1.0.0" (some peerDepsBar) "1.0.0" "2.0.0"

/-- Version `1.0.0` whose `peerDependencies` is the empty object, tagged `latest`. -/
def dataEmptyPeers : RegistryData :=
  registryOf "1.0.0" (some ⟨[], by simp⟩) "latest" "1.0.0"

/-! ## Auxiliary lemmas -/

theorem lookup_of_mem {α : Type} (l : List (String × α)) (hl : (l.map Prod.fst).Nodup)
    (k : String) (v : α) (h : (k, v) ∈ l) : l.lookup k = some v := by
  induction l with
  | nil => cases h
  | cons e es ih =>
    obtain ⟨k', v'⟩ := e
    rw [List.map_cons, List.nodup_cons] at hl
    rcases List.mem_cons.mp h with heq | hmem
    · cases heq
      simp [List.lookup]
    · have hne : k ≠ k' := by
        rintro rfl
        exact hl.1 (List.mem_map.mpr ⟨(k, v), hmem, rfl⟩)
      have hb : (k == k') = false := by simpa using hne
      rw [List.lookup_cons, hb]
      exact ih hl.2 hmem

theorem JsObject.get_of_mem {α : Type} (o : JsObject α) (k : String) (v : α)
    (h : (k, v) ∈ o.entries) : o.get k = some v :=
  lookup_of_mem o.entries o.nodup k v h

theorem JsObject.exists_get_of_mem_keys {α : Type} (o : JsObject α) (k : String)
    (h : k ∈ o.keys) : ∃ v, (k, v) ∈ o.entries ∧ o.get k = some v := by
  obtain ⟨e, he, rfl⟩ := List.mem_map.mp h
  exact ⟨e.2, he, o.get_of_mem e.1 e.2 he⟩

theorem splitChars_of_not_mem (sep : Char) (w : List Char) (h : sep ∉ w) :
    splitChars sep w = [w] := by
  induction w with
  | nil => rfl
  | cons c cs ih =>
    have hc : c ≠ sep := fun e => h (e ▸ List.mem_cons_self _ _)
    have hcs : sep ∉ cs := fun e => h (List.mem_cons_of_mem _ e)
    simp [splitChars, hc, ih hcs]

theorem splitChars_append_sep (sep : Char) (w r : List Char) (h : sep ∉ w) :
    splitChars sep (w ++ sep :: r) = w :: splitChars sep r := by
  induction w with
  | nil => simp [splitChars]
  | cons c cs ih =>
    have hc : c ≠ sep := fun e => h (e ▸ List.mem_cons_self _ _)
    have hcs : sep ∉ cs := fun e => h (List.mem_cons_of_mem _ e)
    simp [splitChars, hc, ih hcs]

/-- Splitting a word followed by separator-led words gives back the words. -/
theorem splitChars_flatten (sep : Char) (ws : List (List Char))
    (hws : ∀ w ∈ ws, sep ∉ w) (w : List Char) (hw : sep ∉ w) :
    splitChars sep (w ++ (ws.map fun v => sep :: v).flatten) = w :: ws := by
  induction ws generalizing w with
  | nil => simpa using splitChars_of_not_mem sep w hw
  | cons v vs ih =>
    have hv : sep ∉ v := hws v (List.mem_cons_self _ _)
    have hvs : ∀ u ∈ vs, sep ∉ u := fun u hu => hws u (List.mem_cons_of_mem _ hu)
    have hstep := ih hvs v hv
    simp only [List.map_cons, List.flatten_cons, List.cons_append]
    rw [splitChars_append_sep sep w _ hw, hstep]

theorem foldl_packages_data (m : JsObject String) (l : List (String × String))
    (hl : ∀ e ∈ l, e ∈ m.entries) (acc : String) :
    (List.foldl
      (fun acc depName => acc ++ " " ++ depName ++ "@" ++ (m.get depName).getD "undefined")
      acc (l.map Prod.fst)).data
      = acc.data ++ (l.map fun e => ' ' :: (e.1 ++ "@" ++ e.2).data).flatten := by
  induction l generalizing acc with
  | nil => simp
  | cons e es ih =>
    have hget : m.get e.1 = some e.2 := m.get_of_mem e.1 e.2 (hl e (List.mem_cons_self _ _))
    have hes : ∀ x ∈ es, x ∈ m.entries := fun x hx => hl x (List.mem_cons_of_mem _ hx)
    simp only [List.map_cons, List.foldl_cons, List.flatten_cons]
    rw [ih hes, hget]
    simp [String.data_append]

/-- The characters of `packagesString`: the name, then a space and `depName@range`
for every entry of the mapping in key order. -/
theorem packagesString_data (packageName : String) (m : JsObject String) :
    (packagesString packageName m).data
      = packageName.data
        ++ (m.entries.map fun e => ' ' :: (e.1 ++ "@" ++ e.2).data).flatten :=
  foldl_packages_data m m.entries (fun _ h => h) packageName

/-- Without spaces inside the name and the entries, splitting `packagesString`
at spaces gives the name and one token per entry. -/
theorem split_packagesString (packageName : String) (m : JsObject String)
    (hname : ' ' ∉ packageName.data)
    (hm : ∀ e ∈ m.entries, ' ' ∉ e.1.data ∧ ' ' ∉ e.2.data) :
    split (packagesString packageName m) ' '
      = packageName :: m.entries.map fun e => e.1 ++ "@" ++ e.2 := by
  have hws : ∀ w ∈ m.entries.map (fun e => (e.1 ++ "@" ++ e.2).data), ' ' ∉ w := by
    intro w hw
    obtain ⟨e, he, rfl⟩ := List.mem_map.mp hw
    have h := hm e he
    simp [String.data_append, h.1, h.2]
  have hsplit := splitChars_flatten ' ' _ hws packageName.data hname
  rw [List.map_map] at hsplit
  unfold split
  rw [packagesString_data]
  have hfun : ((fun v => ' ' :: v) ∘ fun e : String × String => (e.1 ++ "@" ++ e.2).data)
      = fun e => ' ' :: (e.1 ++ "@" ++ e.2).data := rfl
  rw [hfun] at hsplit
  rw [hsplit, List.map_cons, List.map_map]
  rfl

theorem spawnedArgs_map_onSignal (signals : List ProcSignal) :
    spawnedArgs (signals.map onSignal) = [] := by
  induction signals with
  | nil => rfl
  | cons s rest ih =>
    cases s with
    | error e => simpa [onSignal, spawnedArgs] using ih
    | close code =>
      by_cases h : code = some 0 <;> simpa [onSignal, spawnedArgs, h] using ih

theorem cbCalls_map_onSignal_length (signals : List ProcSignal) :
    (cbCalls (signals.map onSignal)).length = signals.length := by
  induction signals with
  | nil => rfl
  | cons s rest ih =>
    cases s with
    | error e => simpa [onSignal, cbCalls] using ih
    | close code =>
      by_cases h : code = some 0 <;> simpa [onSignal, cbCalls, h] using ih

/-- The one `spawn` of lines 101-106 and its argument list. -/
theorem spawnedArgs_install (env : Env) (packageName version : String) (dev : Bool)
    (peerDeps : JsObject String) :
    spawnedArgs (install env packageName version dev peerDeps)
      = [args (packageManager env.hasYarn) (packagesString packageName peerDeps)
          (devFlag (packageManager env.hasYarn) dev)] := by
  simp [install, spawnedArgs, spawnedArgs_map_onSignal]

theorem cbCalls_install_length (env : Env) (packageName version : String) (dev : Bool)
    (peerDeps : JsObject String) :
    (cbCalls (install env packageName version dev peerDeps)).length = env.signals.length := by
  simp [install, cbCalls, cbCalls_map_onSignal_length]

/-- The trace of an invocation whose loading and registry request succeed and
whose version resolves. -/
theorem installPeerDeps_of_resolved (env : Env) (data : RegistryData)
    (packageName version resolved : String) (dev : Bool)
    (hload : env.load = none) (hreg : env.registry = .ok data)
    (hres : resolveVersion data version = .ok resolved) :
    installPeerDeps env packageName version dev
      = .registryGet (packageUri packageName) ::
          match peerDepsVersionMap data resolved with
          | none => [.throwTypeError]
          | some none => [.cb (some noPeerDepsError), .throwTypeError]
          | some (some peerDeps) => install env packageName resolved dev peerDeps := by
  simp [installPeerDeps, hload, hreg, onRegistryData, hres]

/-- Whenever the resolved version's metadata lacks `peerDependencies`, the
callback receives the error of line 55 and the registry callback then throws. -/
theorem installPeerDeps_no_peerDependencies (env : Env) (data : RegistryData)
    (packageName version resolved : String) (dev : Bool)
    (hload : env.load = none) (hreg : env.registry = .ok data)
    (hres : resolveVersion data version = .ok resolved)
    (hmeta : data.versions.get resolved = some ⟨none⟩) :
    installPeerDeps env packageName version dev
      = [.registryGet (packageUri packageName), .cb (some noPeerDepsError), .throwTypeError] := by
  rw [installPeerDeps_of_resolved env data packageName version resolved dev hload hreg hres]
  simp [peerDepsVersionMap, hmeta]

/-! ## The pattern of `parsePackageString` -/

theorem Regex.runPlus_greedy (cls : Char → Bool) (k : List Char → Option Captures)
    (hk : ∀ c cs, cls c = true → k (c :: cs) = none) (s : List Char) :
    Regex.runPlus cls k s
      = if s.takeWhile cls = [] then none else k (s.dropWhile cls) := by
  induction s with
  | nil => simp [Regex.runPlus]
  | cons c cs ih =>
    by_cases hc : cls c = true
    · simp only [Regex.runPlus, hc, if_true, ih, List.takeWhile_cons, List.dropWhile_cons]
      cases cs with
      | nil => simp
      | cons d ds =>
        by_cases hd : cls d = true
        · simp only [List.takeWhile_cons, hd, if_true, List.dropWhile_cons]
          cases hres : k (List.dropWhile cls ds) with
          | none => simp [hk d ds hd]
          | some r => simp
        · simp [hd]
    · simp [Regex.runPlus, hc]

theorem take_length_sub_dropWhile (p : Char → Bool) (s : List Char) :
    s.take (s.length - (s.dropWhile p).length) = s.takeWhile p := by
  have h := List.takeWhile_append_dropWhile p s
  have hlen : (s.takeWhile p).length + (s.dropWhile p).length = s.length := by
    rw [← List.length_append, h]
  have htake : (s.takeWhile p ++ s.dropWhile p).take (s.takeWhile p).length = s.takeWhile p :=
    List.take_left' rfl
  rw [h] at htake
  rw [← hlen, Nat.add_sub_cancel]
  exact htake

theorem run_versionPart (input s : List Char) (caps : Captures) :
    (Regex.seq (.opt (.group 2 (.seq (.char '@') (.group 3 (.plus isVersionChar))))) .eos).run
        input s caps (fun _ c => some c)
      = match s with
        | [] => some caps
        | c :: v =>
          if c = '@' ∧ v.takeWhile isVersionChar ≠ [] ∧ v.dropWhile isVersionChar = [] then
            some ((2, String.mk (c :: v)) :: (3, String.mk v) :: caps)
          else none := by
  cases s with
  | nil => simp [Regex.run]
  | cons c v =>
    by_cases hc : c = '@'
    · subst hc
      simp only [Regex.run, if_true]
      rw [Regex.runPlus_greedy isVersionChar _ (by intro c cs _; simp)]
      by_cases htw : v.takeWhile isVersionChar = []
      · simp [htw]
      · by_cases hdw : v.dropWhile isVersionChar = []
        · simp [htw, hdw]
        · simp [htw, hdw]
    · simp [Regex.run, hc]

theorem run_group_plus (input s : List Char) (caps : Captures) (i : Nat) (cls : Char → Bool)
    (rest : Regex) (k : List Char → Captures → Option Captures)
    (hk : ∀ c cs caps1, cls c = true → rest.run input (c :: cs) caps1 k = none) :
    (Regex.seq (.group i (.plus cls)) rest).run input s caps k
      = if s.takeWhile cls = [] then none
        else rest.run input (s.dropWhile cls) ((i, String.mk (s.takeWhile cls)) :: caps) k := by
  simp only [Regex.run]
  rw [Regex.runPlus_greedy cls _ (fun c cs h => hk c cs _ h), take_length_sub_dropWhile]

theorem isNameChar_ne_at (c : Char) (h : isNameChar c = true) : c ≠ '@' := by
  rintro rfl
  exact absurd h (by decide)

theorem isVersionChar_ne_at (c : Char) (h : isVersionChar c = true) : c ≠ '@' := by
  rintro rfl
  exact absurd h (by decide)

theorem run_namePart (input s : List Char) :
    (Regex.seq (.group 1 (.plus isNameChar))
        (.seq (.opt (.group 2 (.seq (.char '@') (.group 3 (.plus isVersionChar))))) .eos)).run
        input s [] (fun _ c => some c)
      = scanName s := by
  rw [run_group_plus]
  · unfold scanName
    by_cases htw : s.takeWhile isNameChar = []
    · simp [htw]
    · simp only [htw, if_false]
      rw [run_versionPart]
  · intro c cs caps1 hc
    rw [run_versionPart]
    simp [isNameChar_ne_at c hc]

theorem run_bos_seq (input s : List Char) (caps : Captures) (rest : Regex)
    (k : List Char → Captures → Option Captures) :
    (Regex.seq .bos rest).run input s caps k
      = if s.length = input.length then rest.run input s caps k else none := by
  simp only [Regex.run]

theorem run_optChar_seq (input s : List Char) (caps : Captures) (c : Char) (rest : Regex)
    (k : List Char → Captures → Option Captures) :
    (Regex.seq (.opt (.char c)) rest).run input s caps k
      = match (match s with
          | d :: tl => if d = c then rest.run input tl caps k else none
          | [] => none) with
        | some res => some res
        | none => rest.run input s caps k := by
  simp only [Regex.run]

theorem scanName_at (rest : List Char) : scanName ('@' :: rest) = none := by
  simp [scanName, List.takeWhile_cons, show isNameChar '@' = false by decide]

theorem run_packageRegex (input : List Char) :
    packageRegex.run input input [] (fun _ c => some c) = scanPackage input := by
  unfold packageRegex scanPackage
  rw [run_bos_seq, if_pos rfl, run_optChar_seq]
  simp only [run_namePart]
  cases input with
  | nil => simp
  | cons d rest =>
    by_cases hd : d = '@'
    · subst hd
      simp only [if_true, List.head?_cons, List.tail_cons, scanName_at]
      cases scanName rest <;> rfl
    · simp [hd]

theorem execFrom_packageRegex_shorter (input s : List Char) (h : s.length < input.length) :
    packageRegex.execFrom input s = none := by
  have hne : s.length ≠ input.length := Nat.ne_of_lt h
  induction s with
  | nil =>
    unfold Regex.execFrom packageRegex
    rw [run_bos_seq, if_neg hne]
  | cons c rest ih =>
    have hrest : rest.length < input.length := by
      simp only [List.length_cons] at h
      omega
    unfold Regex.execFrom
    have hrun : packageRegex.run input (c :: rest) [] (fun _ caps => some caps) = none := by
      unfold packageRegex
      rw [run_bos_seq, if_neg hne]
    rw [hrun]
    exact ih hrest (Nat.ne_of_lt hrest)

/-- On every string the matcher computes the captures of the left-to-right reading. -/
theorem exec_packageRegex (s : String) : packageRegex.exec s = scanPackage s.data := by
  unfold Regex.exec
  cases hs : s.data with
  | nil =>
    unfold Regex.execFrom
    exact run_packageRegex []
  | cons c rest =>
    unfold Regex.execFrom
    rw [run_packageRegex, execFrom_packageRegex_shorter (c :: rest) rest (by simp)]
    cases scanPackage (c :: rest) <;> rfl

theorem takeWhile_append_stop (p : Char → Bool) (w r : List Char) (hw : ∀ c ∈ w, p c = true)
    (hr : ∀ c ∈ r.head?, p c = false) :
    (w ++ r).takeWhile p = w ∧ (w ++ r).dropWhile p = r := by
  induction w with
  | nil =>
    cases r with
    | nil => simp
    | cons d ds =>
      have hd : p d = false := hr d (by simp)
      simp [List.takeWhile_cons, List.dropWhile_cons, hd]
  | cons c cs ih =>
    have hc : p c = true := hw c (List.mem_cons_self _ _)
    have hcs := ih fun d hd => hw d (List.mem_cons_of_mem _ hd)
    simp [List.takeWhile_cons, List.dropWhile_cons, hc, hcs.1, hcs.2]

theorem scanName_name (name : List Char) (hne : name ≠ [])
    (hname : ∀ c ∈ name, isNameChar c = true) :
    scanName name = some [(1, String.mk name)] := by
  have h := takeWhile_append_stop isNameChar name [] hname (by simp)
  rw [List.append_nil] at h
  simp [scanName, h.1, h.2, hne]

theorem scanName_name_version (name v : List Char) (hne : name ≠ [])
    (hname : ∀ c ∈ name, isNameChar c = true) (hv : v ≠ [])
    (hver : ∀ c ∈ v, isVersionChar c = true) :
    scanName (name ++ '@' :: v)
      = some [(2, String.mk ('@' :: v)), (3, String.mk v), (1, String.mk name)] := by
  have h := takeWhile_append_stop isNameChar name ('@' :: v) hname
    (by simp [show isNameChar '@' = false by decide])
  have h2 := takeWhile_append_stop isVersionChar v [] hver (by simp)
  rw [List.append_nil] at h2
  simp [scanName, h.1, h.2, h2.1, h2.2, hne, hv]

theorem scanPackage_lead (lead t : List Char) (hlead : lead = [] ∨ lead = ['@'])
    (ht : ∀ c ∈ t.head?, isNameChar c = true) :
    scanPackage (lead ++ t) = scanName t := by
  rcases hlead with rfl | rfl
  · unfold scanPackage
    cases t with
    | nil => simp
    | cons d ds =>
      have hd : d ≠ '@' := isNameChar_ne_at d (ht d (by simp))
      simp [hd]
  · simp [scanPackage]

theorem head?_lead_append (lead t : List Char) (hlead : lead = [] ∨ lead = ['@'])
    (ht : ∀ c ∈ t.head?, isNameChar c = true) :
    ((lead ++ t).head? = some '@') ↔ lead = ['@'] := by
  rcases hlead with rfl | rfl
  · cases t with
    | nil => simp
    | cons d ds =>
      have hd : d ≠ '@' := isNameChar_ne_at d (ht d (by simp))
      simp [hd]
  · simp

theorem lookup_captures (a b c : String) :
    List.lookup 1 [(2, a), (3, b), (1, c)] = some c
    ∧ List.lookup 3 [(2, a), (3, b), (1, c)] = some b
    ∧ List.lookup 1 [(1, c)] = some c ∧ List.lookup 3 [(1, c)] = none :=
  ⟨rfl, rfl, rfl, rfl⟩

/-- A token of the form `lead name` parses to that name without a version, and a
token of the form `lead name @ version` to that name and that version. -/
theorem parsePackageString_complete (lead name : List Char)
    (hlead : lead = [] ∨ lead = ['@']) (hne : name ≠ [])
    (hname : ∀ c ∈ name, isNameChar c = true) :
    parsePackageString (String.mk (lead ++ name))
        = some ⟨some (String.mk (lead ++ name)), none⟩
    ∧ ∀ v : List Char, v ≠ [] → (∀ c ∈ v, isVersionChar c = true) →
        parsePackageString (String.mk (lead ++ name ++ '@' :: v))
          = some ⟨some (String.mk (lead ++ name)), some (String.mk v)⟩ := by
  have hhead : ∀ r : List Char, ∀ c ∈ (name ++ r).head?, isNameChar c = true := by
    intro r c hc
    cases name with
    | nil => exact absurd rfl hne
    | cons d ds =>
      simp only [List.cons_append, List.head?_cons, Option.mem_def, Option.some.injEq] at hc
      exact hc ▸ hname d (List.mem_cons_self _ _)
  constructor
  · unfold parsePackageString
    have hh := head?_lead_append lead name hlead (by simpa using hhead [])
    have hs := scanPackage_lead lead name hlead (by simpa using hhead [])
    rw [exec_packageRegex]
    simp only [hs, scanName_name name hne hname, (lookup_captures "" "" _).2.2.1,
      (lookup_captures "" "" _).2.2.2]
    rcases hlead with rfl | rfl
    · simp at hh ⊢
      simp [hh]
    · simp
      rfl
  · intro v hv hver
    unfold parsePackageString
    have hh := head?_lead_append lead (name ++ '@' :: v) hlead (hhead _)
    have hs := scanPackage_lead lead (name ++ '@' :: v) hlead (hhead _)
    rw [exec_packageRegex]
    simp only [List.append_assoc, hs, scanName_name_version name v hne hname hv hver,
      (lookup_captures _ _ _).1, (lookup_captures _ _ _).2.1]
    rcases hlead with rfl | rfl
    · simp at hh ⊢
      simp [hh]
    · simp
      rfl

theorem scanName_sound (t : List Char) (caps : Captures) (h : scanName t = some caps) :
    ∃ name : List Char, name ≠ [] ∧ (∀ c ∈ name, isNameChar c = true)
      ∧ (t = name
        ∨ ∃ v : List Char, v ≠ [] ∧ (∀ c ∈ v, isVersionChar c = true) ∧ t = name ++ '@' :: v) := by
  unfold scanName at h
  by_cases htw : t.takeWhile isNameChar = []
  · simp [htw] at h
  · refine ⟨t.takeWhile isNameChar, htw, fun c hc => (List.mem_takeWhile_imp hc), ?_⟩
    have happ := List.takeWhile_append_dropWhile isNameChar t
    cases hdw : t.dropWhile isNameChar with
    | nil =>
      left
      rw [hdw, List.append_nil] at happ
      exact happ.symm
    | cons c v =>
      right
      rw [hdw] at h happ
      simp only [htw, if_false] at h
      by_cases hcond : c = '@' ∧ v.takeWhile isVersionChar ≠ [] ∧ v.dropWhile isVersionChar = []
      · obtain ⟨hc, hvtw, hvdw⟩ := hcond
        have hv := List.takeWhile_append_dropWhile isVersionChar v
        rw [hvdw, List.append_nil] at hv
        refine ⟨v, ?_, ?_, ?_⟩
        · rw [← hv]; exact hvtw
        · intro d hd
          rw [← hv] at hd
          exact List.mem_takeWhile_imp hd
        · rw [← hc]; exact happ.symm
      · rw [if_neg hcond] at h
        cases h

/-- Whatever `parsePackageString` returns comes from a token of the grammar:
the name is the token up to the version suffix, the version is the suffix
without its `@`. -/
theorem parsePackageString_sound (s : String) (spec : PackageSpecifier)
    (h : parsePackageString s = some spec) :
    ∃ lead name : List Char, (lead = [] ∨ lead = ['@']) ∧ name ≠ []
      ∧ (∀ c ∈ name, isNameChar c = true)
      ∧ spec.packageName = some (String.mk (lead ++ name))
      ∧ ((spec.packageVersion = none ∧ s.data = lead ++ name)
        ∨ ∃ v : List Char, v ≠ [] ∧ (∀ c ∈ v, isVersionChar c = true)
            ∧ spec.packageVersion = some (String.mk v) ∧ s.data = lead ++ name ++ '@' :: v) := by
  have hscan : ∃ caps, scanPackage s.data = some caps := by
    unfold parsePackageString at h
    rw [exec_packageRegex] at h
    cases hc : scanPackage s.data with
    | none => simp [hc] at h
    | some caps => exact ⟨caps, rfl⟩
  obtain ⟨caps, hcaps⟩ := hscan
  have hdecomp : ∃ lead t : List Char, (lead = [] ∨ lead = ['@']) ∧ s.data = lead ++ t
      ∧ scanName t = some caps := by
    unfold scanPackage at hcaps
    by_cases hhead : s.data.head? = some '@'
    · rw [if_pos hhead] at hcaps
      refine ⟨['@'], s.data.tail, Or.inr rfl, ?_, hcaps⟩
      cases hd : s.data with
      | nil => simp [hd] at hhead
      | cons d ds =>
        rw [hd] at hhead
        simp only [List.head?_cons, Option.some.injEq] at hhead
        simp [hhead]
    · rw [if_neg hhead] at hcaps
      exact ⟨[], s.data, Or.inl rfl, rfl, hcaps⟩
  obtain ⟨lead, t, hlead, hs, ht⟩ := hdecomp
  obtain ⟨name, hne, hname, hform⟩ := scanName_sound t caps ht
  have hcomplete := parsePackageString_complete lead name hlead hne hname
  have hmk : s = String.mk s.data := rfl
  refine ⟨lead, name, hlead, hne, hname, ?_⟩
  rcases hform with rfl | ⟨v, hv, hver, rfl⟩
  · rw [hmk, hs, hcomplete.1] at h
    cases h
    exact ⟨rfl, Or.inl ⟨rfl, hs⟩⟩
  · have hs2 : s.data = lead ++ name ++ '@' :: v := by rw [hs, List.append_assoc]
    rw [hmk, hs2, hcomplete.2 v hv hver] at h
    cases h
    exact ⟨rfl, Or.inr ⟨v, hv, hver, rfl, hs2⟩⟩

theorem isNameChar_of_letter (c : Char)
    (h : c.isAlpha = true ∨ c.isDigit = true ∨ c = '_' ∨ c = '-' ∨ c = '/') :
    isNameChar c = true := by
  rcases h with h | h | h | h | h <;> simp [isNameChar, isWordChar, Char.isAlphanum, h]

theorem isVersionChar_of_letter (c : Char)
    (h : c.isAlpha = true ∨ c.isDigit = true ∨ c = '.' ∨ c = '-') :
    isVersionChar c = true := by
  rcases h with h | h | h | h <;> simp [isVersionChar, isWordChar, Char.isAlphanum, h]

theorem data_ne_nil_of_ne_empty (s : String) (h : s ≠ "") : s.data ≠ [] := by
  intro hd
  exact h (String.ext hd)

/-! ## Decimal rendering of exit codes -/

theorem digitChar_spec (d : Nat) (h : d < 10) :
    (Nat.digitChar d).toNat - 48 = d ∧ Nat.digitChar d ≠ '-' := by
  interval_cases d <;> decide

theorem decimalValue_append_singleton (xs : List Char) (c : Char) :
    decimalValue (xs ++ [c]) = decimalValue xs * 10 + (c.toNat - 48) := by
  simp [decimalValue, List.foldl_append]

theorem toDigitsCore_spec (fuel : Nat) : ∀ (n : Nat) (ds : List Char), n < fuel →
    ∃ xs : List Char, Nat.toDigitsCore 10 fuel n ds = xs ++ ds ∧ decimalValue xs = n
      ∧ xs ≠ [] ∧ ∀ c ∈ xs, c ≠ '-' := by
  induction fuel with
  | zero => intro n ds h; omega
  | succ fuel ih =>
    intro n ds hn
    have hd := digitChar_spec (n % 10) (Nat.mod_lt _ (by decide))
    by_cases hq : n / 10 = 0
    · refine ⟨[Nat.digitChar (n % 10)], ?_, ?_, by simp, ?_⟩
      · simp [Nat.toDigitsCore, hq]
      · have hlt : n < 10 := by omega
        have hmod : n % 10 = n := Nat.mod_eq_of_lt hlt
        rw [hmod] at hd ⊢
        simp [decimalValue, hd.1]
      · intro c hc
        simp only [List.mem_singleton] at hc
        exact hc ▸ hd.2
    · obtain ⟨xs, hxs, hval, _, hdig⟩ :=
        ih (n / 10) (Nat.digitChar (n % 10) :: ds) (by omega)
      refine ⟨xs ++ [Nat.digitChar (n % 10)], ?_, ?_, by simp, ?_⟩
      · simp [Nat.toDigitsCore, hq, hxs]
      · rw [decimalValue_append_singleton, hval, hd.1]
        omega
      · intro c hc
        rcases List.mem_append.mp hc with h | h
        · exact hdig c h
        · simp only [List.mem_singleton] at h
          exact h ▸ hd.2

theorem repr_spec (n : Nat) :
    decimalValue (Nat.repr n).data = n ∧ (Nat.repr n).data ≠ []
      ∧ ∀ c ∈ (Nat.repr n).data, c ≠ '-' := by
  obtain ⟨xs, hxs, hval, hne, hdig⟩ := toDigitsCore_spec (n + 1) n [] (Nat.lt_succ_self n)
  have hdata : (Nat.repr n).data = xs := by
    simp [Nat.repr, Nat.toDigits, hxs, List.asString]
  rw [hdata]
  exact ⟨hval, hne, hdig⟩

theorem repr_injective (a b : Nat) (h : Nat.repr a = Nat.repr b) : a = b := by
  have ha := (repr_spec a).1
  rw [h, (repr_spec b).1] at ha
  exact ha.symm

/-- The decimal rendering of exit codes is injective. -/
theorem toString_int_injective (a b : Int) (h : toString a = toString b) : a = b := by
  have hminus : ∀ (m k : Nat), Nat.repr m ≠ "-" ++ Nat.repr k := by
    intro m k heq
    have hd := congrArg String.data heq
    rw [String.data_append] at hd
    have hmem : '-' ∈ (Nat.repr m).data := by rw [hd]; simp
    exact (repr_spec m).2.2 '-' hmem rfl
  cases a with
  | ofNat m =>
    cases b with
    | ofNat k => exact congrArg Int.ofNat (repr_injective m k h)
    | negSucc k => exact absurd h (hminus m (k + 1))
  | negSucc m =>
    cases b with
    | ofNat k => exact absurd h.symm (hminus k (m + 1))
    | negSucc k =>
      have hd : ("-" ++ Nat.repr (m + 1)).data = ("-" ++ Nat.repr (k + 1)).data :=
        congrArg String.data h
      simp only [String.data_append, List.append_cancel_left_eq] at hd
      have hmk : m + 1 = k + 1 := repr_injective (m + 1) (k + 1) (String.ext hd)
      have hmk2 : m = k := by omega
      rw [hmk2]

/-! ## Registry path and process outcomes -/

theorem isUriUnreserved_of_letter (c : Char)
    (h : c.isAlpha = true ∨ c.isDigit = true ∨ c = '_' ∨ c = '-') :
    isUriUnreserved c = true := by
  rcases h with h | h | h | h <;> simp [isUriUnreserved, Char.isAlphanum, h]

theorem encodeURIComponent_unreserved (l : List Char)
    (h : ∀ c ∈ l, isUriUnreserved c = true) :
    (l.flatMap fun c =>
      if isUriUnreserved c then [c] else (utf8Bytes c).flatMap percentByte) = l := by
  induction l with
  | nil => rfl
  | cons c cs ih =>
    have hc := h c (List.mem_cons_self _ _)
    have hcs := ih fun d hd => h d (List.mem_cons_of_mem _ hd)
    simp [List.flatMap_cons, hc, hcs]

/-- The registry path of a scoped name: the `/` becomes `%2F`, the rest stays. -/
theorem encodeURIComponent_scoped (scope pkg : String)
    (hscope : ∀ c ∈ scope.data, isUriUnreserved c = true)
    (hpkg : ∀ c ∈ pkg.data, isUriUnreserved c = true) :
    encodeURIComponent (String.mk (scope.data ++ '/' :: pkg.data))
      = scope ++ "%2F" ++ pkg := by
  apply String.ext
  have hslash : (if isUriUnreserved '/' then ['/'] else (utf8Bytes '/').flatMap percentByte)
      = ['%', '2', 'F'] := by decide
  simp only [encodeURIComponent, List.flatMap_append, List.flatMap_cons, hslash,
    encodeURIComponent_unreserved _ hscope, encodeURIComponent_unreserved _ hpkg,
    String.data_append]
  simp

theorem cbCalls_install (env : Env) (packageName version : String) (dev : Bool)
    (peerDeps : JsObject String) :
    cbCalls (install env packageName version dev peerDeps) = cbCalls (env.signals.map onSignal) := by
  simp [install, cbCalls]

theorem spawnedCommands_map_onSignal (signals : List ProcSignal) :
    spawnedCommands (signals.map onSignal) = [] := by
  induction signals with
  | nil => rfl
  | cons s rest ih =>
    cases s with
    | error e => simpa [onSignal, spawnedCommands] using ih
    | close code =>
      by_cases h : code = some 0 <;> simpa [onSignal, spawnedCommands, h] using ih

theorem spawnedCommands_install (env : Env) (packageName version : String) (dev : Bool)
    (peerDeps : JsObject String) :
    spawnedCommands (install env packageName version dev peerDeps)
      = [packageManager env.hasYarn ++ extra env.platform] := by
  simp [install, spawnedCommands, spawnedCommands_map_onSignal]

theorem packagesString_empty (packageName : String) (peerDeps : JsObject String)
    (h : peerDeps.entries = []) : packagesString packageName peerDeps = packageName := by
  simp [packagesString, JsObject.keys, h]

/-- On a token the pattern of line 8 does not match, `parsed` is `null` and
`parsePackageString` throws instead of returning a specifier. -/
theorem parsePackageString_none_of_not_pattern (token : String) (h : ¬ MatchesPattern token) :
    parsePackageString token = none := by
  cases hp : parsePackageString token with
  | none => rfl
  | some spec =>
    exfalso
    apply h
    obtain ⟨lead, name, hlead, hne, hname, _, hform⟩ := parsePackageString_sound token spec hp
    rcases hform with ⟨_, hdata⟩ | ⟨v, hv, hver, _, hdata⟩
    · exact ⟨lead, name, [], hlead, hne, hname, Or.inl rfl, by simpa using hdata⟩
    · exact ⟨lead, name, '@' :: v, hlead, hne, hname, Or.inr ⟨v, hv, hver, rfl⟩, hdata⟩

/-- The pattern accepts every token of the specification's grammar. -/
theorem matchesPattern_of_matchesGrammar (token : String) (h : MatchesGrammar token) :
    MatchesPattern token := by
  obtain ⟨lead, name, suffix, hlead, hne, hname, hsuffix, hdata⟩ := h
  have hn : ∀ c ∈ name, isNameChar c = true := by
    intro c hc
    have hg := hname c hc
    simp only [isGrammarNameChar, Bool.or_eq_true, beq_iff_eq] at hg
    exact isNameChar_of_letter c (by tauto)
  refine ⟨lead, name, suffix, hlead, hne, hn, ?_, hdata⟩
  rcases hsuffix with hnil | ⟨v, hv, hver, hs⟩
  · exact Or.inl hnil
  · refine Or.inr ⟨v, hv, ?_, hs⟩
    intro c hc
    have hg := hver c hc
    simp only [isGrammarVersionChar, Bool.or_eq_true, beq_iff_eq] at hg
    exact isVersionChar_of_letter c (by tauto)

/-- A list is cut at its first `@` in one way only. -/
theorem append_at_unique (n1 n2 v1 v2 : List Char) (h1 : '@' ∉ n1) (h2 : '@' ∉ n2)
    (h : n1 ++ '@' :: v1 = n2 ++ '@' :: v2) : n1 = n2 ∧ v1 = v2 := by
  induction n1 generalizing n2 with
  | nil =>
    cases n2 with
    | nil => exact ⟨rfl, by simpa using h⟩
    | cons d ds =>
      simp only [List.nil_append, List.cons_append, List.cons.injEq] at h
      exact absurd (h.1 ▸ List.mem_cons_self _ _) h2
  | cons c cs ih =>
    cases n2 with
    | nil =>
      simp only [List.nil_append, List.cons_append, List.cons.injEq] at h
      exact absurd (h.1 ▸ List.mem_cons_self _ _) h1
    | cons d ds =>
      simp only [List.cons_append, List.cons.injEq] at h
      have hcs : '@' ∉ cs := fun hm => h1 (List.mem_cons_of_mem _ hm)
      have hds : '@' ∉ ds := fun hm => h2 (List.mem_cons_of_mem _ hm)
      obtain ⟨hn, hv⟩ := ih ds hcs hds h.2
      exact ⟨by rw [h.1, hn], hv⟩

/-! ## The claims -/

/-- C1 (fails on the code): the published range `>=15.0.0 <17.0.0` of the peer
dependency `react` is not forwarded as the one argument `react@>=15.0.0 <17.0.0`;
splitting `packagesString` at spaces cuts it into `react@>=15.0.0` and `<17.0.0`. -/
theorem C1_spaced_range_is_cut :
    spawnedArgs (installPeerDeps
        (envWith (registryOf "1.0.0" (some peerDepsSpacedRange) "latest" "1.0.0") false
          [.close (some 0)]) "foo" "1.0.0" false)
      = [["install", "foo", "react@>=15.0.0", "<17.0.0", "--save"]]
    ∧ "react@>=15.0.0 <17.0.0" ∉ ["install", "foo", "react@>=15.0.0", "<17.0.0", "--save"] := by
  decide

/-- C2 (fails on the code): for version `1.0.0` published without
`peerDependencies`, the callback receives the "no peer dependencies" error, but
that is not the only outcome: line 55 does not return, and the invocation goes
on to throw an uncaught `TypeError` at `Object.keys(undefined)`. No process is
spawned. -/
theorem C2_no_peer_dependencies_then_throws :
    installPeerDeps (envWith dataNoPeers false []) "foo" "1.0.0" false
      = [.registryGet "https://registry.npmjs.com/foo",
         .cb (some (.error "The package you are trying to install has no peer dependencies. Use yarn or npm to install it manually.")),
         .throwTypeError] := by
  decide

/-- C3 (counterexample): when the install process emits `'error'` and then
`'close'`, the completion callback is invoked twice, not once. -/
theorem C3_error_then_close_calls_back_twice :
    cbCalls (installPeerDeps
        (envWith dataNext false [.error (.external "ENOENT"), .close (some (-2))])
        "pkg-with-peers" "next" false)
      = [some (.external "ENOENT"),
         some (.error "The install process exited with error code -2.")]
    ∧ (cbCalls (installPeerDeps
        (envWith dataNext false [.error (.external "ENOENT"), .close (some (-2))])
        "pkg-with-peers" "next" false)).length ≠ 1 := by
  decide

/-- C3 (amended): in an invocation that throws no uncaught `TypeError`, the
completion callback is invoked exactly once when no install process is spawned
(load error, registry error, unknown version or tag), and once per signal of
the install process when one is spawned; so exactly once for a single `'error'`
or a single `'close'`. -/
theorem C3_callback_once_per_outcome (env : Env) (packageName version : String) (dev : Bool)
    (hthrow : Effect.throwTypeError ∉ installPeerDeps env packageName version dev) :
    (cbCalls (installPeerDeps env packageName version dev)).length
      = if spawnedArgs (installPeerDeps env packageName version dev) = [] then 1
        else env.signals.length := by
  unfold installPeerDeps at hthrow ⊢
  cases hload : env.load with
  | some err => simp [cbCalls, spawnedArgs]
  | none =>
    cases hreg : env.registry with
    | error err => simp [cbCalls, spawnedArgs]
    | ok data =>
      simp only [hload, hreg] at hthrow
      unfold onRegistryData at hthrow ⊢
      cases hres : resolveVersion data version with
      | error e => simp [hres, cbCalls, spawnedArgs]
      | ok resolved =>
        simp only [hres] at hthrow
        cases hpeer : peerDepsVersionMap data resolved with
        | none => simp [hpeer] at hthrow
        | some found =>
          cases found with
          | none => simp [hpeer] at hthrow
          | some peerDeps =>
            simp [hres, hpeer, cbCalls, spawnedArgs, spawnedArgs_install,
              cbCalls_install_length, cbCalls_map_onSignal_length]

/-- C3 (amended), at the scenario of the specification: one `'close'` with code 0. -/
theorem C3_callback_once_per_outcome_witness :
    Effect.throwTypeError ∉
        installPeerDeps (envWith dataNext false [.close (some 0)]) "pkg-with-peers" "next" false
    ∧ (cbCalls (installPeerDeps (envWith dataNext false [.close (some 0)])
        "pkg-with-peers" "next" false)).length = 1 :=
  ⟨by decide,
   (C3_callback_once_per_outcome (envWith dataNext false [.close (some 0)])
      "pkg-with-peers" "next" false (by decide)).trans (by decide)⟩

/-- C4 (counterexample): the tag `latest` points to `2.0.0`, which is not among
the published versions; resolution succeeds with `2.0.0`, `data.versions["2.0.0"]`
is undefined and reading its `peerDependencies` throws. -/
theorem C4_dangling_tag_resolves_outside_versions :
    resolveVersion dataDangling "latest" = .ok "2.0.0"
    ∧ "2.0.0" ∉ dataDangling.versions.keys
    ∧ (dataDangling.versions.get "2.0.0").isSome = false
    ∧ installPeerDeps (envWith dataDangling false []) "foo" "latest" false
        = [.registryGet "https://registry.npmjs.com/foo", .throwTypeError] :=
  ⟨rfl, by decide, by decide, by decide⟩

/-- C4 (amended): in a registry response all of whose dist-tags point to keys of
`data.versions`, every successful resolution yields a key of `data.versions`,
so the lookup `data.versions[version]` is defined. -/
theorem C4_resolved_is_published (data : RegistryData) (version resolved : String)
    (htags : ∀ e ∈ data.distTags.entries, e.2 ∈ data.versions.keys)
    (hres : resolveVersion data version = .ok resolved) :
    resolved ∈ data.versions.keys ∧ ∃ m, data.versions.get resolved = some m := by
  have hkey : resolved ∈ data.versions.keys := by
    unfold resolveVersion at hres
    by_cases hv : version ∈ data.versions.keys
    · simp [hv] at hres
      exact hres ▸ hv
    · by_cases ht : version ∈ data.distTags.keys
      · obtain ⟨target, hmem, hget⟩ := data.distTags.exists_get_of_mem_keys version ht
        simp [hv, ht, hget] at hres
        exact hres ▸ htags (version, target) hmem
      · simp [hv, ht] at hres
  obtain ⟨m, _, hm⟩ := data.versions.exists_get_of_mem_keys resolved hkey
  exact ⟨hkey, m, hm⟩

/-- C4 (amended), at tag `next` pointing to the published version `3.0.0`. -/
theorem C4_resolved_is_published_witness :
    "3.0.0" ∈ dataNext.versions.keys ∧ ∃ m, dataNext.versions.get "3.0.0" = some m :=
  C4_resolved_is_published dataNext "next" "3.0.0" (by decide) rfl

/-- C5: a requested string that is a key of `data.versions` resolves to itself,
whatever `data['dist-tags']` holds, also when the same string is a tag that
points to another version. -/
theorem C5_version_match_first (data : RegistryData) (version : String)
    (hv : version ∈ data.versions.keys) :
    resolveVersion data version = .ok version := by
  simp [resolveVersion, hv]

/-- C5, where `1.0.0` is a published version and also a tag pointing to `2.0.0`. -/
theorem C5_version_match_first_witness :
    "1.0.0" ∈ dataBoth.versions.keys ∧ dataBoth.distTags.get "1.0.0" = some "2.0.0"
    ∧ resolveVersion dataBoth "1.0.0" = .ok "1.0.0" :=
  ⟨by decide, by decide, C5_version_match_first dataBoth "1.0.0" (by decide)⟩

/-- C6: a requested string that is not a key of `data.versions` but is a key of
`data['dist-tags']` resolves to the tag's target, and the install command is
built from the `peerDependencies` of that target: the spawned arguments are
those computed from `data.versions[target].peerDependencies`. -/
theorem C6_tag_resolves_to_target (env : Env) (data : RegistryData)
    (packageName version target : String) (dev : Bool)
    (hload : env.load = none) (hreg : env.registry = .ok data)
    (hv : version ∉ data.versions.keys) (ht : (version, target) ∈ data.distTags.entries) :
    resolveVersion data version = .ok target
    ∧ spawnedArgs (installPeerDeps env packageName version dev)
        = match peerDepsVersionMap data target with
          | some (some peerDeps) =>
            [args (packageManager env.hasYarn) (packagesString packageName peerDeps)
              (devFlag (packageManager env.hasYarn) dev)]
          | _ => [] := by
  have hkey : version ∈ data.distTags.keys := List.mem_map.mpr ⟨(version, target), ht, rfl⟩
  have hres : resolveVersion data version = .ok target := by
    simp [resolveVersion, hv, hkey, data.distTags.get_of_mem version target ht]
  refine ⟨hres, ?_⟩
  rw [installPeerDeps_of_resolved env data packageName version target dev hload hreg hres]
  cases hpeer : peerDepsVersionMap data target with
  | none => simp [spawnedArgs]
  | some found =>
    cases found with
    | none => simp [spawnedArgs]
    | some peerDeps => simp [spawnedArgs, spawnedArgs_install, spawnedArgs_map_onSignal]

/-- C6, at the scenario of the specification: tag `next` pointing to `3.0.0` with
peer dependencies `{"left-pad": "^1.3.0"}`, npm, not dev. -/
theorem C6_tag_resolves_to_target_witness :
    "next" ∉ dataNext.versions.keys ∧ ("next", "3.0.0") ∈ dataNext.distTags.entries
    ∧ resolveVersion dataNext "next" = .ok "3.0.0"
    ∧ spawnedArgs (installPeerDeps (envWith dataNext false [.close (some 0)])
        "pkg-with-peers" "next" false)
        = [["install", "pkg-with-peers", "left-pad@^1.3.0", "--save"]] :=
  have h := C6_tag_resolves_to_target (envWith dataNext false [.close (some 0)]) dataNext
    "pkg-with-peers" "next" "3.0.0" false rfl rfl (by decide) (by decide)
  ⟨by decide, by decide, h.1, h.2.trans (by decide)⟩

/-- C7: a requested string that is neither a key of `data.versions` nor a key of
`data['dist-tags']` makes the callback receive the error
`That version or tag does not exist.`, and nothing is spawned. -/
theorem C7_unknown_version_or_tag (env : Env) (data : RegistryData)
    (packageName version : String) (dev : Bool)
    (hload : env.load = none) (hreg : env.registry = .ok data)
    (hv : version ∉ data.versions.keys) (ht : version ∉ data.distTags.keys) :
    cbCalls (installPeerDeps env packageName version dev)
        = [some (.error "That version or tag does not exist.")]
    ∧ spawnedArgs (installPeerDeps env packageName version dev) = [] := by
  have hres : resolveVersion data version = .error unknownVersionError := by
    simp [resolveVersion, hv, ht]
  simp [installPeerDeps, hload, hreg, onRegistryData, hres, cbCalls, spawnedArgs,
    unknownVersionError]

/-- C7, for the request `nope` against versions `{3.0.0}` and tags `{next}`. -/
theorem C7_unknown_version_or_tag_witness :
    "nope" ∉ dataNext.versions.keys ∧ "nope" ∉ dataNext.distTags.keys
    ∧ cbCalls (installPeerDeps (envWith dataNext false [.close (some 0)])
        "pkg-with-peers" "nope" false)
        = [some (.error "That version or tag does not exist.")]
    ∧ spawnedArgs (installPeerDeps (envWith dataNext false [.close (some 0)])
        "pkg-with-peers" "nope" false) = [] :=
  ⟨by decide, by decide,
   C7_unknown_version_or_tag (envWith dataNext false [.close (some 0)]) dataNext
     "pkg-with-peers" "nope" false rfl rfl (by decide) (by decide)⟩

/-- C8: with npm, when neither the package name nor any name or range of the
peer-dependency mapping contains a space, the spawned argument list is
`install`, the bare package name, `depName@range` for every entry of the mapping
in key order, and finally `--save-dev` if `dev` holds and `--save` otherwise. -/
theorem C8_npm_args (env : Env) (data : RegistryData)
    (packageName version resolved : String) (dev : Bool) (peerDeps : JsObject String)
    (hload : env.load = none) (hreg : env.registry = .ok data)
    (hres : resolveVersion data version = .ok resolved)
    (hpeer : peerDepsVersionMap data resolved = some (some peerDeps))
    (hnpm : env.hasYarn = false)
    (hname : ' ' ∉ packageName.data)
    (hdeps : ∀ e ∈ peerDeps.entries, ' ' ∉ e.1.data ∧ ' ' ∉ e.2.data) :
    spawnedArgs (installPeerDeps env packageName version dev)
      = [["install", packageName] ++ (peerDeps.entries.map fun e => e.1 ++ "@" ++ e.2)
          ++ [if dev then "--save-dev" else "--save"]] := by
  rw [installPeerDeps_of_resolved env data packageName version resolved dev hload hreg hres]
  simp only [hpeer, spawnedArgs, spawnedArgs_install, hnpm]
  cases dev <;>
    simp [args, packageManager, devFlag, subcommand, C.npm, C.yarn,
      split_packagesString packageName peerDeps hname hdeps]

/-- C8, at the example of the specification: name `foo`, peer dependencies
`{"bar": "^1.0.0"}`, npm, not dev. -/
theorem C8_npm_args_witness :
    spawnedArgs (installPeerDeps (envWith dataBar false [.close (some 0)]) "foo" "latest" false)
      = [["install", "foo", "bar@^1.0.0", "--save"]] :=
  C8_npm_args (envWith dataBar false [.close (some 0)]) dataBar "foo" "latest" "1.0.0" false
    peerDepsBar rfl rfl rfl rfl rfl (by decide) (by decide)

/-- C9: with yarn, when neither the package name nor any name or range of the
peer-dependency mapping contains a space, the spawned argument list is `add`,
the bare package name, `depName@range` for every entry of the mapping in key
order, followed by `--dev` if `dev` holds and by nothing otherwise. -/
theorem C9_yarn_args (env : Env) (data : RegistryData)
    (packageName version resolved : String) (dev : Bool) (peerDeps : JsObject String)
    (hload : env.load = none) (hreg : env.registry = .ok data)
    (hres : resolveVersion data version = .ok resolved)
    (hpeer : peerDepsVersionMap data resolved = some (some peerDeps))
    (hyarn : env.hasYarn = true)
    (hname : ' ' ∉ packageName.data)
    (hdeps : ∀ e ∈ peerDeps.entries, ' ' ∉ e.1.data ∧ ' ' ∉ e.2.data) :
    spawnedArgs (installPeerDeps env packageName version dev)
      = [["add", packageName] ++ (peerDeps.entries.map fun e => e.1 ++ "@" ++ e.2)
          ++ (if dev then ["--dev"] else [])] := by
  rw [installPeerDeps_of_resolved env data packageName version resolved dev hload hreg hres]
  simp only [hpeer, spawnedArgs, spawnedArgs_install, hyarn]
  cases dev <;>
    simp [args, packageManager, devFlag, subcommand, C.npm, C.yarn,
      split_packagesString packageName peerDeps hname hdeps]

/-- C9, at the example of the specification: name `foo`, peer dependencies
`{"bar": "^1.0.0"}`, yarn, dev. -/
theorem C9_yarn_args_witness :
    spawnedArgs (installPeerDeps (envWith dataBar true [.close (some 0)]) "foo" "latest" true)
      = [["add", "foo", "bar@^1.0.0", "--dev"]] :=
  C9_yarn_args (envWith dataBar true [.close (some 0)]) dataBar "foo" "latest" "1.0.0" true
    peerDepsBar rfl rfl rfl rfl rfl (by decide) (by decide)

/-- C10 (fails on the code): for the range `^1.0.0 ` published with a trailing
space, splitting `packagesString` at spaces leaves an empty string in the
argument list handed to `spawn`. -/
theorem C10_trailing_space_gives_empty_argument :
    spawnedArgs (installPeerDeps
        (envWith (registryOf "1.0.0" (some peerDepsTrailingSpace) "latest" "1.0.0") false
          [.close (some 0)]) "foo" "latest" false)
      = [["install", "foo", "bar@^1.0.0", "", "--save"]]
    ∧ "" ∈ ["install", "foo", "bar@^1.0.0", "", "--save"] := by
  decide

/-- C11: for a non-empty name `n` of letters, digits, `_`, `-`, `/` and a
non-empty version `v` of letters, digits, `.`, `-` (letters are `A-Z`, `a-z`),
`parsePackageString` returns name `n` and version `v` on `n@v`, and name `@n`
and version `v` on `@n@v`. -/
theorem C11_parse_name_and_version (n v : String)
    (hn : n ≠ "")
    (hnc : ∀ c ∈ n.data, c.isAlpha = true ∨ c.isDigit = true ∨ c = '_' ∨ c = '-' ∨ c = '/')
    (hv : v ≠ "")
    (hvc : ∀ c ∈ v.data, c.isAlpha = true ∨ c.isDigit = true ∨ c = '.' ∨ c = '-') :
    parsePackageString (n ++ "@" ++ v)
        = some { packageName := some n, packageVersion := some v }
    ∧ parsePackageString ("@" ++ n ++ "@" ++ v)
        = some { packageName := some ("@" ++ n), packageVersion := some v } := by
  have hname : ∀ c ∈ n.data, isNameChar c = true := fun c hc => isNameChar_of_letter c (hnc c hc)
  have hver : ∀ c ∈ v.data, isVersionChar c = true :=
    fun c hc => isVersionChar_of_letter c (hvc c hc)
  have hne := data_ne_nil_of_ne_empty n hn
  have hve := data_ne_nil_of_ne_empty v hv
  have h1 := (parsePackageString_complete [] n.data (Or.inl rfl) hne hname).2 v.data hve hver
  have h2 := (parsePackageString_complete ['@'] n.data (Or.inr rfl) hne hname).2 v.data hve hver
  have e1 : n ++ "@" ++ v = String.mk ([] ++ n.data ++ '@' :: v.data) :=
    String.ext (by simp [String.data_append])
  have e2 : "@" ++ n ++ "@" ++ v = String.mk (['@'] ++ n.data ++ '@' :: v.data) :=
    String.ext (by simp [String.data_append])
  have e3 : "@" ++ n = String.mk (['@'] ++ n.data) := String.ext (by simp [String.data_append])
  rw [e1, e2, e3, h1, h2]
  exact ⟨rfl, rfl⟩

/-- C11, at the example of the specification. -/
theorem C11_parse_name_and_version_witness :
    parsePackageString "scope/pkg@1.2.3-beta"
        = some { packageName := some "scope/pkg", packageVersion := some "1.2.3-beta" }
    ∧ parsePackageString "@scope/pkg@1.2.3-beta"
        = some { packageName := some "@scope/pkg", packageVersion := some "1.2.3-beta" } :=
  C11_parse_name_and_version "scope/pkg" "1.2.3-beta" (by decide) (by decide) (by decide)
    (by decide)

/-- C12: on a token without version suffix, an optional leading `@` followed by
one or more letters, digits, `_`, `-` or `/`, `parsePackageString` returns the
whole token as the name and no version (`undefined`, not a default). -/
theorem C12_parse_without_version (n : String)
    (hn : n ≠ "")
    (hnc : ∀ c ∈ n.data, c.isAlpha = true ∨ c.isDigit = true ∨ c = '_' ∨ c = '-' ∨ c = '/') :
    parsePackageString n = some { packageName := some n, packageVersion := none }
    ∧ parsePackageString ("@" ++ n)
        = some { packageName := some ("@" ++ n), packageVersion := none } := by
  have hname : ∀ c ∈ n.data, isNameChar c = true := fun c hc => isNameChar_of_letter c (hnc c hc)
  have hne := data_ne_nil_of_ne_empty n hn
  have h1 := (parsePackageString_complete [] n.data (Or.inl rfl) hne hname).1
  have h2 := (parsePackageString_complete ['@'] n.data (Or.inr rfl) hne hname).1
  have e3 : "@" ++ n = String.mk (['@'] ++ n.data) := String.ext (by simp [String.data_append])
  rw [e3, h2]
  exact ⟨h1, rfl⟩

/-- C12, for the tokens `angular/core` and `@angular/core`. -/
theorem C12_parse_without_version_witness :
    parsePackageString "angular/core"
        = some { packageName := some "angular/core", packageVersion := none }
    ∧ parsePackageString "@angular/core"
        = some { packageName := some "@angular/core", packageVersion := none } :=
  C12_parse_without_version "angular/core" (by decide) (by decide)

/-- C13 (fails on the code): the token `foo@1_0` is outside the name/version
grammar, whose version characters are letters, digits, dot and hyphen, yet
`parsePackageString` does not fail on it: the class `[\d\w\.-]` of the pattern
lets the underscore through and the specifier `foo`, `1_0` is returned. -/
theorem C13_underscore_version_is_accepted :
    parsePackageString "foo@1_0"
        = some { packageName := some "foo", packageVersion := some "1_0" }
    ∧ ¬ MatchesGrammar "foo@1_0" := by
  refine ⟨by decide, ?_⟩
  rintro ⟨lead, name, suffix, hlead, hne, hname, hsuffix, hdata⟩
  have hd : lead ++ name ++ suffix = ['f', 'o', 'o'] ++ '@' :: ['1', '_', '0'] := hdata.symm
  have hat : '@' ∉ name := fun hm => absurd (hname '@' hm) (by decide)
  rcases hlead with rfl | rfl
  · rcases hsuffix with rfl | ⟨v, _, hver, rfl⟩
    · have hmem : '@' ∈ name := by
        have : name = ['f', 'o', 'o'] ++ '@' :: ['1', '_', '0'] := by simpa using hd
        rw [this]
        decide
      exact hat hmem
    · have hcut := append_at_unique name ['f', 'o', 'o'] v ['1', '_', '0'] hat (by decide)
        (by simpa using hd)
      have hu : '_' ∈ v := by
        rw [hcut.2]
        decide
      exact absurd (hver '_' hu) (by decide)
  · simp only [List.cons_append, List.nil_append, List.cons.injEq] at hd
    exact absurd hd.1 (by decide)

/-- C14 (counterexample): `@foo` is parsed, and its name `@foo` starts with `@`
without being of the form `@scope/pkg`: it contains no `/`. -/
theorem C14_scope_without_slash :
    parsePackageString "@foo" = some { packageName := some "@foo", packageVersion := none }
    ∧ '/' ∉ "@foo".data := by
  decide

/-- C14 (amended): the name `parsePackageString` returns is non-empty: it is one
or more name characters (letters, digits, `_`, `-`, `/`), preceded by `@`
exactly when the token starts with `@`; after a leading `@` nothing more is
required than a non-empty run of name characters. -/
theorem C14_name_shape (token : String) (spec : PackageSpecifier)
    (h : parsePackageString token = some spec) :
    ∃ packageName : String, spec.packageName = some packageName ∧ packageName ≠ ""
      ∧ ∃ name : List Char, name ≠ [] ∧ (∀ c ∈ name, isNameChar c = true)
          ∧ ((token.data.head? ≠ some '@' ∧ packageName.data = name)
            ∨ (token.data.head? = some '@' ∧ packageName.data = '@' :: name)) := by
  obtain ⟨lead, name, hlead, hne, hname, hpn, hform⟩ := parsePackageString_sound token spec h
  have hhead : ∀ r : List Char, ∀ c ∈ (name ++ r).head?, isNameChar c = true := by
    intro r c hc
    cases name with
    | nil => exact absurd rfl hne
    | cons d ds =>
      simp only [List.cons_append, List.head?_cons, Option.mem_def, Option.some.injEq] at hc
      exact hc ▸ hname d (List.mem_cons_self _ _)
  have htoken : (token.data.head? = some '@') ↔ lead = ['@'] := by
    rcases hform with ⟨_, hdata⟩ | ⟨v, _, _, _, hdata⟩
    · rw [hdata]
      exact head?_lead_append lead name hlead (by simpa using hhead [])
    · rw [hdata, List.append_assoc]
      exact head?_lead_append lead (name ++ '@' :: v) hlead (hhead _)
  refine ⟨String.mk (lead ++ name), hpn, ?_, name, hne, hname, ?_⟩
  · intro hempty
    have hd : lead ++ name = [] := congrArg String.data hempty
    simp only [List.append_eq_nil] at hd
    exact hne hd.2
  · rcases hlead with rfl | rfl
    · exact Or.inl ⟨fun hh => by simpa using htoken.mp hh, rfl⟩
    · exact Or.inr ⟨htoken.mpr rfl, rfl⟩

/-- C14 (amended), at the token `@scope/pkg@1.2.3-beta`. -/
theorem C14_name_shape_witness :
    ∃ packageName : String, some "@scope/pkg" = some packageName ∧ packageName ≠ ""
      ∧ ∃ name : List Char, name ≠ [] ∧ (∀ c ∈ name, isNameChar c = true)
          ∧ (("@scope/pkg@1.2.3-beta".data.head? ≠ some '@' ∧ packageName.data = name)
            ∨ ("@scope/pkg@1.2.3-beta".data.head? = some '@'
                ∧ packageName.data = '@' :: name)) :=
  C14_name_shape "@scope/pkg@1.2.3-beta"
    { packageName := some "@scope/pkg", packageVersion := some "1.2.3-beta" } (by decide)

/-- C15 (counterexample): for version `1.0.0` published with `peerDependencies`
equal to the empty object, no "no peer dependencies" error is reported; the
bare package is installed with `npm install foo --save`. -/
theorem C15_empty_mapping_installs_bare_package :
    installPeerDeps (envWith dataEmptyPeers false [.close (some 0)]) "foo" "latest" false
      = [.registryGet "https://registry.npmjs.com/foo",
         .log "Installing peerdeps for foo@1.0.0.",
         .log "npm install foo \n",
         .spawn "npm" ["install", "foo", "--save"],
         .cb none] := by
  decide

/-- C15 (amended): when the resolved version's `peerDependencies` is present
with zero entries, `installPeerDeps` goes on as for any present mapping: it
throws nothing, spawns the package manager with the subcommand, the pieces of
the bare package name and the flag, and the callback receives only what the
handlers of the install process pass on. -/
theorem C15_empty_mapping_spawns (env : Env) (data : RegistryData)
    (packageName version resolved : String) (dev : Bool) (peerDeps : JsObject String)
    (hload : env.load = none) (hreg : env.registry = .ok data)
    (hres : resolveVersion data version = .ok resolved)
    (hpeer : peerDepsVersionMap data resolved = some (some peerDeps))
    (hempty : peerDeps.entries = []) :
    installPeerDeps env packageName version dev
        = .registryGet (packageUri packageName) :: install env packageName resolved dev peerDeps
    ∧ spawnedArgs (installPeerDeps env packageName version dev)
        = [args (packageManager env.hasYarn) packageName
            (devFlag (packageManager env.hasYarn) dev)]
    ∧ cbCalls (installPeerDeps env packageName version dev)
        = cbCalls (env.signals.map onSignal) := by
  have htrace := installPeerDeps_of_resolved env data packageName version resolved dev
    hload hreg hres
  simp only [hpeer] at htrace
  rw [htrace]
  refine ⟨rfl, ?_, ?_⟩
  · simp [spawnedArgs, install, spawnedArgs_map_onSignal,
      packagesString_empty packageName peerDeps hempty]
  · simp [cbCalls, install]

/-- C15 (amended), for the empty `peerDependencies` of `foo@1.0.0`, npm, not dev. -/
theorem C15_empty_mapping_spawns_witness :
    spawnedArgs (installPeerDeps (envWith dataEmptyPeers false [.close (some 0)])
        "foo" "latest" false) = [["install", "foo", "--save"]]
    ∧ cbCalls (installPeerDeps (envWith dataEmptyPeers false [.close (some 0)])
        "foo" "latest" false) = [none] :=
  have h := C15_empty_mapping_spawns (envWith dataEmptyPeers false [.close (some 0)])
    dataEmptyPeers "foo" "latest" "1.0.0" false ⟨[], by simp⟩ rfl rfl rfl rfl rfl
  ⟨h.2.1.trans (by decide), h.2.2.trans (by decide)⟩

/-- C16: after the install process is spawned, a `'close'` with code 0 makes the
callback receive `null`; a `'close'` with a code `c` other than 0 makes it
receive the error `The install process exited with error code c.`, and
different codes give different errors; an `'error'` with cause `e` makes it
receive `e` itself. -/
theorem C16_process_outcomes (env : Env) (packageName version : String) (dev : Bool)
    (peerDeps : JsObject String) (c : Int) (e : Err) :
    (env.signals = [.close (some 0)] →
        cbCalls (install env packageName version dev peerDeps) = [none])
    ∧ (c ≠ 0 → env.signals = [.close (some c)] →
        cbCalls (install env packageName version dev peerDeps)
          = [some (.error ("The install process exited with error code " ++ toString c ++ "."))])
    ∧ (env.signals = [.error e] →
        cbCalls (install env packageName version dev peerDeps) = [some e])
    ∧ (∀ c2 : Int, c ≠ c2 →
        Err.error ("The install process exited with error code " ++ toString c ++ ".")
          ≠ Err.error ("The install process exited with error code " ++ toString c2 ++ ".")) := by
  refine ⟨?_, ?_, ?_, ?_⟩
  · intro h
    simp [cbCalls_install, h, onSignal, cbCalls]
  · intro hc h
    simp [cbCalls_install, h, onSignal, cbCalls, hc, codeToString]
  · intro h
    simp [cbCalls_install, h, onSignal, cbCalls]
  · intro c2 hne heq
    apply hne
    apply toString_int_injective
    have hd := congrArg String.data (Err.error.inj heq)
    simp only [String.data_append, List.append_cancel_left_eq, List.append_cancel_right_eq] at hd
    exact String.ext hd

/-- C16, for exit code 3. -/
theorem C16_process_outcomes_witness :
    cbCalls (install (envWith dataBar false [.close (some 3)]) "foo" "1.0.0" false peerDepsBar)
        = [some (.error "The install process exited with error code 3.")]
    ∧ Err.error "The install process exited with error code 3."
        ≠ Err.error "The install process exited with error code 4." :=
  have h := C16_process_outcomes (envWith dataBar false [.close (some 3)]) "foo" "1.0.0" false
    peerDepsBar 3 (.external "ENOENT")
  ⟨h.2.1 (by decide) rfl, h.2.2.2 4 (by decide)⟩

/-- C17: the URI requested from the registry is `https://registry.npmjs.com/`
followed by `@` and the encoding of the name without its first character when
the name begins with `@`, and by the encoding of the name otherwise; for a
scoped name `@scope/pkg` of letters (`A-Z`, `a-z`), digits, `_` and `-` the path
is `@scope%2Fpkg`. -/
theorem C17_registry_uri (env : Env) (packageName version scope pkg : String) (dev : Bool)
    (hload : env.load = none)
    (hscope : ∀ c ∈ scope.data, c.isAlpha = true ∨ c.isDigit = true ∨ c = '_' ∨ c = '-')
    (hpkg : ∀ c ∈ pkg.data, c.isAlpha = true ∨ c.isDigit = true ∨ c = '_' ∨ c = '-') :
    (installPeerDeps env packageName version dev).head?
        = some (.registryGet ("https://registry.npmjs.com/" ++
            if packageName.data.head? = some '@' then
              "@" ++ encodeURIComponent (String.mk (packageName.data.drop 1))
            else encodeURIComponent packageName))
    ∧ packageUri ("@" ++ scope ++ "/" ++ pkg)
        = "https://registry.npmjs.com/" ++ ("@" ++ scope ++ "%2F" ++ pkg) := by
  constructor
  · simp [installPeerDeps, hload, packageUri, encodedPackageName]
  · have henc := encodeURIComponent_scoped scope pkg
      (fun c hc => isUriUnreserved_of_letter c (hscope c hc))
      (fun c hc => isUriUnreserved_of_letter c (hpkg c hc))
    have hdata : ("@" ++ scope ++ "/" ++ pkg).data = '@' :: (scope.data ++ '/' :: pkg.data) := by
      simp [String.data_append]
    simp only [packageUri, encodedPackageName, hdata, List.head?_cons, if_true, List.drop_one,
      List.tail_cons, henc]
    apply String.ext
    simp [String.data_append]

/-- C17, for the names `@scope/pkg` and `left-pad`. -/
theorem C17_registry_uri_witness :
    (installPeerDeps (envWith dataNext false []) "left-pad" "next" false).head?
        = some (.registryGet "https://registry.npmjs.com/left-pad")
    ∧ packageUri "@scope/pkg" = "https://registry.npmjs.com/@scope%2Fpkg" :=
  have h := C17_registry_uri (envWith dataNext false []) "left-pad" "next" "scope" "pkg" false
    rfl (by decide) (by decide)
  ⟨h.1.trans (by decide), h.2⟩

/-- C18 (fails on the code): with npm and `dev` false the line shown to the user
is `npm install foo bar@^1.0.0 ` followed by a newline, while the command run
is `npm install foo bar@^1.0.0 --save`. -/
theorem C18_printed_command_omits_save :
    loggedLines (installPeerDeps (envWith dataBar false [.close (some 0)]) "foo" "latest" false)
        = ["Installing peerdeps for foo@1.0.0.", "npm install foo bar@^1.0.0 \n"]
    ∧ spawnedCommands
        (installPeerDeps (envWith dataBar false [.close (some 0)]) "foo" "latest" false)
        = ["npm"]
    ∧ spawnedArgs
        (installPeerDeps (envWith dataBar false [.close (some 0)]) "foo" "latest" false)
        = [["install", "foo", "bar@^1.0.0", "--save"]]
    ∧ commandLine "npm" ["install", "foo", "bar@^1.0.0", "--save"]
        = "npm install foo bar@^1.0.0 --save"
    ∧ "npm install foo bar@^1.0.0 \n" ≠ "npm install foo bar@^1.0.0 --save" := by
  decide

/-- C19: the executable handed to `spawn` is the package manager's name, `npm`
or `yarn`, with `.cmd` appended when the platform is `win32` and unchanged
otherwise; the argument list is the same on every platform. -/
theorem C19_executable_name (env : Env) (packageName version : String) (dev : Bool)
    (peerDeps : JsObject String) (platform : String) :
    spawnedCommands (install env packageName version dev peerDeps)
        = [if env.platform = "win32" then packageManager env.hasYarn ++ ".cmd"
           else packageManager env.hasYarn]
    ∧ (packageManager env.hasYarn = "npm" ∨ packageManager env.hasYarn = "yarn")
    ∧ spawnedArgs (installPeerDeps { env with platform := platform } packageName version dev)
        = spawnedArgs (installPeerDeps env packageName version dev) := by
  refine ⟨?_, ?_, ?_⟩
  · rw [spawnedCommands_install]
    by_cases hw : env.platform = "win32"
    · simp [extra, hw]
    · simp [extra, hw]
  · cases env.hasYarn <;> simp [packageManager, C.npm, C.yarn]
  · obtain ⟨load, registry, hasYarn, platform0, signals⟩ := env
    cases load with
    | some err => rfl
    | none =>
      cases registry with
      | error err => rfl
      | ok data =>
        simp only [installPeerDeps, onRegistryData]
        cases resolveVersion data version with
        | error err => rfl
        | ok resolved =>
          simp only []
          cases peerDepsVersionMap data resolved with
          | none => rfl
          | some found =>
            cases found with
            | none => rfl
            | some m => simp [spawnedArgs, install, spawnedArgs_map_onSignal]

/-- C20: a specifier returned by `parsePackageString` gives back the token it
was parsed from, as the name followed by `@` and the version when there is one;
so no other token parses to the same specifier. -/
theorem C20_round_trip (token : String) (spec : PackageSpecifier)
    (h : parsePackageString token = some spec) :
    spec.token = token
    ∧ ∀ other : String, parsePackageString other = some spec → other = token := by
  have hback : ∀ (t : String) (p : PackageSpecifier), parsePackageString t = some p →
      p.token = t := by
    intro t p hp
    obtain ⟨lead, name, _, _, _, hpn, hform⟩ := parsePackageString_sound t p hp
    apply String.ext
    rcases hform with ⟨hpv, hdata⟩ | ⟨v, _, _, hpv, hdata⟩
    · simp [PackageSpecifier.token, hpn, hpv, hdata, String.data_append]
    · simp [PackageSpecifier.token, hpn, hpv, hdata, String.data_append]
  exact ⟨hback token spec h, fun other ho => (hback other spec ho).symm.trans (hback token spec h)⟩

/-- C20, at the token `@scope/pkg@1.2.3-beta`. -/
theorem C20_round_trip_witness :
    PackageSpecifier.token
        { packageName := some "@scope/pkg", packageVersion := some "1.2.3-beta" }
      = "@scope/pkg@1.2.3-beta"
    ∧ ∀ other : String,
        parsePackageString other
          = some { packageName := some "@scope/pkg", packageVersion := some "1.2.3-beta" } →
        other = "@scope/pkg@1.2.3-beta" :=
  C20_round_trip "@scope/pkg@1.2.3-beta"
    { packageName := some "@scope/pkg", packageVersion := some "1.2.3-beta" } (by decide)

end InstallPeerDeps
